import Mathlib

/-!
Verification of the retrieval / re-ranking core of the `yuno-rag-pipeline`
repository (`src/retrieval/retriever.py`).

The embedding below translates, from the Python source:

* `HybridRetriever._cosine_similarity` — cosine similarity of two float
  vectors, returning `0.0` when either vector has zero norm; `np.dot`
  raises a `ValueError` on mismatched 1-d shapes, which the spec's error
  taxonomy names `InvalidInput`, so the translation returns
  `Except.error .invalidInput` in that case.
* `HybridRetriever._mmr_rerank` — greedy Maximal Marginal Relevance
  selection.  Python's `max(xs, key=...)` returns the first maximal
  element, and `list.remove(x)` deletes the first element equal to `x`;
  both are modelled exactly (`pyMax`, `List.erase`).  The `for _ in
  range(min(top_k, len(candidates)))` loop is modelled by a fuel
  argument equal to `(min top_k len).toNat` (Python's `range` of a
  negative number is empty).
* `HybridRetriever.semantic_search` — the retrieval façade; its two
  external collaborators (embedding provider, MongoDB vector index) are
  parameters, and the returned `Bool` records whether the index search
  was invoked.

Exceptions are modelled by `Except`: any similarity failure inside the
re-ranking loop propagates, exactly as an uncaught Python exception
would.  Real number arithmetic stands in for floating point.
-/

namespace YunoRag

/-- Error taxonomy of the spec: `InvalidInput` (dimension mismatch,
modelling numpy's `ValueError` from `np.dot` on mismatched shapes),
`EmbeddingUnavailable` (embedding provider failure), `IndexUnavailable`
(vector index failure). -/
inductive RetrievalError where
  | invalidInput : RetrievalError
  | embeddingUnavailable : RetrievalError
  | indexUnavailable : RetrievalError
deriving DecidableEq

/-- Candidate document as built by `semantic_search` from the index
results: a dict with keys `content`, `metadata`, `embedding`,
`similarity` (the provider-assigned base score) and `_id`. -/
structure Candidate where
  content : String
  metadata : List (String × String)
  embedding : List ℝ
  similarity : ℝ
  id : String

/-- Public result document: the candidate dict after
`result.pop("embedding", None)` stripped the embedding. -/
structure RetrievedDoc where
  content : String
  metadata : List (String × String)
  similarity : ℝ
  id : String

noncomputable section

/-- Equality of candidates is field-wise equality, as for Python dicts
(this is the equality `list.remove` uses). -/
instance : DecidableEq Candidate := fun a b =>
  decidable_of_iff
    (a.content = b.content ∧ a.metadata = b.metadata ∧ a.embedding = b.embedding ∧
      a.similarity = b.similarity ∧ a.id = b.id)
    (by cases a; cases b; simp)

/-- Dot product of two float vectors, `np.dot(vec1, vec2)` on 1-d arrays
of equal length (summed coordinatewise products). -/
def dotL (v1 v2 : List ℝ) : ℝ :=
  (List.zipWith (fun x y => x * y) v1 v2).sum

/-- Translation of `HybridRetriever._cosine_similarity`.  `np.dot`
raises `ValueError` when the 1-d shapes disagree (the spec's
`InvalidInput`); otherwise `np.linalg.norm` is the Euclidean norm
`Real.sqrt (dotL v v)`, and a zero norm on either side yields `0.0`. -/
def _cosine_similarity (vec1 vec2 : List ℝ) : Except RetrievalError ℝ :=
  if vec1.length ≠ vec2.length then .error .invalidInput
  else
    let dot_product := dotL vec1 vec2
    let norm1 := Real.sqrt (dotL vec1 vec1)
    let norm2 := Real.sqrt (dotL vec2 vec2)
    if norm1 = 0 ∨ norm2 = 0 then .ok 0
    else .ok (dot_product / (norm1 * norm2))

/-- Value computed by `_cosine_similarity` on equal-length vectors (the
non-error branch of the translation). -/
def cosSimVal (vec1 vec2 : List ℝ) : ℝ :=
  let norm1 := Real.sqrt (dotL vec1 vec1)
  let norm2 := Real.sqrt (dotL vec2 vec2)
  if norm1 = 0 ∨ norm2 = 0 then 0
  else dotL vec1 vec2 / (norm1 * norm2)

theorem cosine_ok {v1 v2 : List ℝ} (h : v1.length = v2.length) :
    _cosine_similarity v1 v2 = .ok (cosSimVal v1 v2) := by
  unfold _cosine_similarity cosSimVal
  simp only [h, ne_eq, not_true_eq_false, if_false, ite_not]
  by_cases hz : Real.sqrt (dotL v1 v1) = 0 ∨ Real.sqrt (dotL v2 v2) = 0 <;>
    simp [hz]

@[simp] theorem dotL_nil_left (v : List ℝ) : dotL [] v = 0 := by simp [dotL]

@[simp] theorem dotL_nil_right (v : List ℝ) : dotL v [] = 0 := by
  cases v <;> simp [dotL]

@[simp] theorem dotL_cons (x y : ℝ) (xs ys : List ℝ) :
    dotL (x :: xs) (y :: ys) = x * y + dotL xs ys := by simp [dotL]

theorem dotL_self_nonneg (v : List ℝ) : 0 ≤ dotL v v := by
  induction v with
  | nil => simp
  | cons x xs ih => simp only [dotL_cons]; nlinarith [sq_nonneg x]

/-- Cauchy–Schwarz for list dot products, by induction on the lists. -/
theorem dotL_sq_le (v1 v2 : List ℝ) :
    (dotL v1 v2) ^ 2 ≤ dotL v1 v1 * dotL v2 v2 := by
  induction v1 generalizing v2 with
  | nil => simp
  | cons x xs ih =>
    cases v2 with
    | nil => simp
    | cons y ys =>
      have h := ih ys
      have hA := dotL_self_nonneg xs
      have hB := dotL_self_nonneg ys
      simp only [dotL_cons]
      rcases eq_or_lt_of_le hB with hB0 | hBpos
      · have hd : dotL xs ys = 0 := by nlinarith [sq_nonneg (dotL xs ys)]
        have hAy : 0 ≤ dotL xs xs * (y * y) := mul_nonneg hA (mul_self_nonneg y)
        rw [hd, ← hB0]
        nlinarith [hAy]
      · have hsub : 0 ≤ dotL xs xs * dotL ys ys - (dotL xs ys) ^ 2 := by linarith
        nlinarith [sq_nonneg (x * dotL ys ys - y * dotL xs ys),
          mul_nonneg hsub hB, mul_nonneg hsub (sq_nonneg y)]

/-- Python's `max(xs, key=lambda x: x[1])`: start from the first element
and replace the current best only on a strictly greater key, so the
first maximal element is returned; `none` on the empty list (Python
raises there). -/
def pyMax {α : Type} : List (α × ℝ) → Option (α × ℝ)
  | [] => none
  | x :: xs => some (xs.foldl (fun b y => if y.2 > b.2 then y else b) x)

/-- Value of the diversity penalty in `_mmr_rerank`: `0.0` when nothing
is selected yet, else `max(self._cosine_similarity(doc.embedding,
sel.embedding) for sel in selected)` (value of the non-error case). -/
def divPenaltyP (doc : Candidate) (selected : List Candidate) : ℝ :=
  match selected with
  | [] => 0
  | s :: rest =>
    rest.foldl (fun acc s2 => max acc (cosSimVal doc.embedding s2.embedding))
      (cosSimVal doc.embedding s.embedding)

/-- MMR score of one remaining document:
`lambda_param * relevance - (1 - lambda_param) * diversity_penalty`. -/
def mmrScoreP (q : List ℝ) (lam : ℝ) (selected : List Candidate) (doc : Candidate) : ℝ :=
  lam * cosSimVal q doc.embedding - (1 - lam) * divPenaltyP doc selected

/-- List `mmr_scores` built by the loop body (document paired with its
score, in `remaining` order); values of the non-error case. -/
def mmrScoresP (q : List ℝ) (lam : ℝ) (selected remaining : List Candidate) :
    List (Candidate × ℝ) :=
  remaining.map fun doc => (doc, mmrScoreP q lam selected doc)

/-- Non-error evaluation of the `_mmr_rerank` selection loop.  The fuel
argument is the iteration count `min(top_k, len(candidates))` of the
Python `for` loop; each round breaks on empty `remaining`, scores every
remaining document, picks the Python `max` by score and moves the first
equal element (`list.remove`) from `remaining` to the end of
`selected`. -/
def mmrSelectP (q : List ℝ) (lam : ℝ) :
    Nat → List Candidate → List Candidate → List Candidate
  | 0, _, selected => selected
  | n + 1, remaining, selected =>
    match remaining with
    | [] => selected
    | d :: ds =>
      match pyMax (mmrScoresP q lam selected (d :: ds)) with
      | some best => mmrSelectP q lam n ((d :: ds).erase best.1) (selected ++ [best.1])
      | none => selected

/-- Monadic diversity-penalty fold: Python's `max(...)` over a generator
evaluates the similarities one by one, so the first failure aborts. -/
def maxSimFold (doc : Candidate) : List Candidate → ℝ → Except RetrievalError ℝ
  | [], acc => .ok acc
  | s :: rest, acc => do
    let v ← _cosine_similarity doc.embedding s.embedding
    maxSimFold doc rest (max acc v)

/-- Diversity penalty of `_mmr_rerank` with error propagation. -/
def divPenalty (doc : Candidate) (selected : List Candidate) : Except RetrievalError ℝ :=
  match selected with
  | [] => .ok 0
  | s :: rest => do
    let v ← _cosine_similarity doc.embedding s.embedding
    maxSimFold doc rest v

/-- Score computation of one loop round of `_mmr_rerank`, building
`mmr_scores` in `remaining` order with error propagation. -/
def mmrScores (q : List ℝ) (lam : ℝ) (selected : List Candidate) :
    List Candidate → Except RetrievalError (List (Candidate × ℝ))
  | [] => .ok []
  | d :: ds => do
    let relevance ← _cosine_similarity q d.embedding
    let diversity_penalty ← divPenalty d selected
    let rest ← mmrScores q lam selected ds
    .ok ((d, lam * relevance - (1 - lam) * diversity_penalty) :: rest)

/-- Selection loop of `_mmr_rerank` with error propagation (an uncaught
exception inside the Python loop aborts the whole call). -/
def mmrSelect (q : List ℝ) (lam : ℝ) :
    Nat → List Candidate → List Candidate → Except RetrievalError (List Candidate)
  | 0, _, selected => .ok selected
  | n + 1, remaining, selected =>
    match remaining with
    | [] => .ok selected
    | d :: ds => do
      let scores ← mmrScores q lam selected (d :: ds)
      match pyMax scores with
      | some best => mmrSelect q lam n ((d :: ds).erase best.1) (selected ++ [best.1])
      | none => .ok selected

/-- Translation of `HybridRetriever._mmr_rerank`: empty candidate list
short-circuits to `[]`; otherwise the loop runs
`range(min(top_k, len(candidates)))` times (empty for negative values,
hence `Int.toNat`), starting from all candidates and an empty
selection. -/
def _mmr_rerank (query_embedding : List ℝ) (candidates : List Candidate)
    (top_k : ℤ) (lambda_param : ℝ) : Except RetrievalError (List Candidate) :=
  if candidates.isEmpty then .ok []
  else mmrSelect query_embedding lambda_param
    (min top_k (candidates.length : ℤ)).toNat candidates []

/-- Default `TOP_K` from `config.py`. -/
def TOP_K : ℤ := 5

/-- Removal of the `embedding` key from a result dict
(`result.pop("embedding", None)`). -/
def stripEmbedding (c : Candidate) : RetrievedDoc :=
  ⟨c.content, c.metadata, c.similarity, c.id⟩

/-- Python slice `candidates[:top_k]`: a negative bound counts from the
end of the list. -/
def pySlice (l : List Candidate) (k : ℤ) : List Candidate :=
  if k < 0 then l.take ((l.length : ℤ) + k).toNat else l.take k.toNat

/-- Translation of `HybridRetriever.semantic_search`.  The two external
collaborators are parameters: `embedRes` is the outcome of the
embedding-provider call (an exception propagates uncaught), and
`searchFn` stands for the MongoDB vector-search pipeline (metadata
filters included), mapping the query embedding and `fetch_limit` to the
candidate pool.  The returned `Bool` records whether the index search
was reached. -/
def semantic_search (embedRes : Except RetrievalError (List ℝ))
    (searchFn : List ℝ → ℤ → List Candidate)
    (top_k : Option ℤ) (use_mmr : Bool) (lambda_param : ℝ) :
    Except RetrievalError (List RetrievedDoc) × Bool :=
  match embedRes with
  | .error e => (.error e, false)
  | .ok query_embedding =>
    let k := top_k.getD TOP_K
    let fetch_limit := if use_mmr then k * 3 else k
    let candidates := searchFn query_embedding fetch_limit
    let results : Except RetrievalError (List Candidate) :=
      if use_mmr ∧ candidates.length > 0 then
        _mmr_rerank query_embedding candidates k lambda_param
      else .ok (pySlice candidates k)
    (results.map (List.map stripEmbedding), true)

/-- Insertion step of the spec-side stable descending sort: a candidate
is placed before the first already-sorted candidate of strictly smaller
similarity, so equal-similarity candidates keep their original order. -/
def insertDesc (q : List ℝ) (a : Candidate) : List Candidate → List Candidate
  | [] => [a]
  | h :: t =>
    if cosSimVal q h.embedding ≤ cosSimVal q a.embedding then a :: h :: t
    else h :: insertDesc q a t

/-- Spec-side reference for the `λ = 1` refinement claim, following the
spec's words: candidates sorted by descending similarity-to-query, ties
broken by original order (a stable descending insertion sort). -/
def specSortDesc (q : List ℝ) : List Candidate → List Candidate
  | [] => []
  | a :: t => insertDesc q a (specSortDesc q t)

/-- Predicate: `b` occurs in `l` and is its first maximum under `f` —
everything before the occurrence scores strictly less, everything in the
list scores at most `f b`. -/
def IsFirstMax {α : Type} (f : α → ℝ) (b : α) (l : List α) : Prop :=
  ∃ l1 l2, l = l1 ++ b :: l2 ∧ (∀ x ∈ l1, f x < f b) ∧ (∀ x ∈ l, f x ≤ f b)

theorem dotL_self_pos {v : List ℝ} (h : ∃ x ∈ v, x ≠ 0) : 0 < dotL v v := by
  induction v with
  | nil => simp at h
  | cons x xs ih =>
    simp only [dotL_cons]
    rcases h with ⟨y, hy, hy0⟩
    rcases List.mem_cons.mp hy with rfl | hmem
    · have hx : 0 < y * y := mul_self_pos.mpr hy0
      linarith [dotL_self_nonneg xs]
    · have hxs : 0 < dotL xs xs := ih ⟨y, hmem, hy0⟩
      linarith [mul_self_nonneg x]

/-! ### Characterization of the Python `max` selection -/

theorem pyFold_spec {α : Type} (f : α → ℝ) :
    ∀ (xs : List α) (b : α),
      ∃ b', List.foldl (fun p y => if f y > p.2 then (y, f y) else p) (b, f b) xs = (b', f b') ∧
        ((b' = b ∧ ∀ y ∈ xs, f y ≤ f b) ∨
          ∃ l1 l2, xs = l1 ++ b' :: l2 ∧ f b < f b' ∧
            (∀ y ∈ l1, f y < f b') ∧ (∀ y ∈ l2, f y ≤ f b')) := by
  intro xs
  induction xs with
  | nil => exact fun b => ⟨b, rfl, Or.inl ⟨rfl, by simp⟩⟩
  | cons y ys ih =>
    intro b
    by_cases hy : f y > f b
    · obtain ⟨b', hb', hcase⟩ := ih y
      refine ⟨b', ?_, ?_⟩
      · simpa [List.foldl_cons, if_pos hy] using hb'
      · rcases hcase with ⟨rfl, hle⟩ | ⟨l1, l2, rfl, hlt, hpre, hsuf⟩
        · exact Or.inr ⟨[], ys, rfl, hy, by simp, hle⟩
        · refine Or.inr ⟨y :: l1, l2, rfl, lt_trans hy hlt, ?_, hsuf⟩
          intro z hz
          rcases List.mem_cons.mp hz with rfl | hz
          · exact hlt
          · exact hpre z hz
    · obtain ⟨b', hb', hcase⟩ := ih b
      refine ⟨b', ?_, ?_⟩
      · simpa [List.foldl_cons, if_neg hy] using hb'
      · rcases hcase with ⟨rfl, hle⟩ | ⟨l1, l2, rfl, hlt, hpre, hsuf⟩
        · exact Or.inl ⟨rfl, by
            intro z hz
            rcases List.mem_cons.mp hz with rfl | hz
            · exact le_of_not_lt hy
            · exact hle z hz⟩
        · refine Or.inr ⟨y :: l1, l2, rfl, hlt, ?_, hsuf⟩
          intro z hz
          rcases List.mem_cons.mp hz with rfl | hz
          · exact lt_of_le_of_lt (le_of_not_lt hy) hlt
          · exact hpre z hz

/-- Python's `max(..., key=...)` over the scored list returns the first
maximal element. -/
theorem pyMax_firstMax {α : Type} (f : α → ℝ) (d : α) (ds : List α) :
    ∃ b, pyMax ((d :: ds).map fun x => (x, f x)) = some (b, f b) ∧ IsFirstMax f b (d :: ds) := by
  obtain ⟨b', hfold, hcase⟩ := pyFold_spec f ds d
  refine ⟨b', ?_, ?_⟩
  · simp only [pyMax, List.map_cons, List.foldl_map]
    rw [← hfold]
  · rcases hcase with ⟨rfl, hle⟩ | ⟨l1, l2, rfl, hlt, hpre, hsuf⟩
    · refine ⟨[], ds, rfl, by simp, ?_⟩
      intro z hz
      rcases List.mem_cons.mp hz with rfl | hz
      · exact le_refl _
      · exact hle z hz
    · refine ⟨d :: l1, l2, rfl, by simpa using ⟨hlt, hpre⟩, ?_⟩
      intro z hz
      rcases List.mem_cons.mp hz with rfl | hz
      · exact le_of_lt hlt
      · rcases List.mem_append.mp hz with hz | hz
        · exact le_of_lt (hpre z hz)
        · rcases List.mem_cons.mp hz with rfl | hz
          · exact le_refl _
          · exact hsuf z hz

theorem IsFirstMax.mem {α : Type} {f : α → ℝ} {b : α} {l : List α}
    (h : IsFirstMax f b l) : b ∈ l := by
  obtain ⟨l1, l2, rfl, -, -⟩ := h
  simp

theorem IsFirstMax.congr {α : Type} {f g : α → ℝ} {b : α} {l : List α}
    (hfg : ∀ x ∈ l, f x = g x) (h : IsFirstMax f b l) : IsFirstMax g b l := by
  obtain ⟨l1, l2, rfl, hpre, hall⟩ := h
  have hb : f b = g b := hfg b (by simp)
  refine ⟨l1, l2, rfl, ?_, ?_⟩
  · intro x hx
    rw [← hfg x (by simp [hx]), ← hb]
    exact hpre x hx
  · intro x hx
    rw [← hfg x hx, ← hb]
    exact hall x hx

theorem IsFirstMax.of_smul {α : Type} {f : α → ℝ} {lam : ℝ} (hlam : 0 < lam)
    {b : α} {l : List α} (h : IsFirstMax (fun x => lam * f x) b l) : IsFirstMax f b l := by
  obtain ⟨l1, l2, rfl, hpre, hall⟩ := h
  refine ⟨l1, l2, rfl, ?_, ?_⟩
  · intro x hx
    exact (mul_lt_mul_left hlam).mp (hpre x hx)
  · intro x hx
    exact (mul_le_mul_left hlam).mp (hall x hx)

/-! ### One round of the selection loop -/

theorem mmrSelectP_step (q : List ℝ) (lam : ℝ) (n : Nat) (sel : List Candidate)
    (d : Candidate) (ds : List Candidate) :
    ∃ b, IsFirstMax (mmrScoreP q lam sel) b (d :: ds) ∧
      pyMax (mmrScoresP q lam sel (d :: ds)) = some (b, mmrScoreP q lam sel b) ∧
      mmrSelectP q lam (n + 1) (d :: ds) sel =
        mmrSelectP q lam n ((d :: ds).erase b) (sel ++ [b]) := by
  obtain ⟨b, hmax, hfirst⟩ := pyMax_firstMax (mmrScoreP q lam sel) d ds
  exact ⟨b, hfirst, hmax, by simp only [mmrSelectP, mmrScoresP] at *; rw [hmax]⟩

theorem mmrSelectP_nil (q : List ℝ) (lam : ℝ) (n : Nat) (sel : List Candidate) :
    mmrSelectP q lam n [] sel = sel := by
  cases n <;> rfl

/-- The selection loop extends `selected` by a sub-permutation of
`remaining`. -/
theorem mmrSelectP_shape (q : List ℝ) (lam : ℝ) :
    ∀ (n : Nat) (rem sel : List Candidate),
      ∃ t, mmrSelectP q lam n rem sel = sel ++ t ∧ t.Subperm rem := by
  intro n
  induction n with
  | zero => exact fun rem sel => ⟨[], by simp [mmrSelectP], List.nil_subperm⟩
  | succ n ih =>
    intro rem sel
    match rem with
    | [] => exact ⟨[], by simp [mmrSelectP], List.nil_subperm⟩
    | d :: ds =>
      obtain ⟨b, hfirst, -, hstep⟩ := mmrSelectP_step q lam n sel d ds
      obtain ⟨t, ht, hsub⟩ := ih ((d :: ds).erase b) (sel ++ [b])
      refine ⟨b :: t, ?_, ?_⟩
      · rw [hstep, ht]
        simp
      · exact ((List.subperm_cons b).mpr hsub).trans
          (List.perm_cons_erase hfirst.mem).symm.subperm

/-- When the fuel does not exceed `remaining`, each round removes
exactly one element, so exactly `fuel` candidates are appended. -/
theorem mmrSelectP_length (q : List ℝ) (lam : ℝ) :
    ∀ (n : Nat) (rem sel : List Candidate), n ≤ rem.length →
      (mmrSelectP q lam n rem sel).length = sel.length + n := by
  intro n
  induction n with
  | zero => intro rem sel _; simp [mmrSelectP]
  | succ n ih =>
    intro rem sel hn
    match rem with
    | [] => simp at hn
    | d :: ds =>
      obtain ⟨b, hfirst, -, hstep⟩ := mmrSelectP_step q lam n sel d ds
      rw [hstep, ih _ _ ?_]
      · simp
        omega
      · have := List.length_erase_of_mem hfirst.mem
        simp only [this]
        simpa using Nat.le_of_succ_le_succ (by simpa using hn)

/-! ### Bridge: error-propagating loop equals the pure loop on
dimension-consistent inputs -/

@[simp] theorem exceptOk_bind {ε α β : Type} (a : α) (f : α → Except ε β) :
    (Except.ok a : Except ε α) >>= f = f a := rfl

@[simp] theorem exceptError_bind {ε α β : Type} (e : ε) (f : α → Except ε β) :
    (Except.error e : Except ε α) >>= f = Except.error e := rfl

theorem maxSimFold_ok (doc : Candidate) {L : Nat} (hdoc : doc.embedding.length = L) :
    ∀ (rest : List Candidate) (acc : ℝ), (∀ s ∈ rest, s.embedding.length = L) →
      maxSimFold doc rest acc =
        .ok (rest.foldl (fun a s2 => max a (cosSimVal doc.embedding s2.embedding)) acc) := by
  intro rest
  induction rest with
  | nil => intro acc _; rfl
  | cons s rest ih =>
    intro acc hlen
    have h1 : doc.embedding.length = s.embedding.length := by
      rw [hdoc, hlen s (by simp)]
    simp only [maxSimFold, cosine_ok h1, exceptOk_bind, List.foldl_cons]
    exact ih _ fun s' hs' => hlen s' (by simp [hs'])

theorem divPenalty_ok (doc : Candidate) (selected : List Candidate) {L : Nat}
    (hdoc : doc.embedding.length = L) (hsel : ∀ s ∈ selected, s.embedding.length = L) :
    divPenalty doc selected = .ok (divPenaltyP doc selected) := by
  match selected with
  | [] => rfl
  | s :: rest =>
    have h1 : doc.embedding.length = s.embedding.length := by
      rw [hdoc, hsel s (by simp)]
    simp only [divPenalty, cosine_ok h1, exceptOk_bind, divPenaltyP]
    exact maxSimFold_ok doc hdoc rest _ fun s' hs' => hsel s' (by simp [hs'])

theorem mmrScores_ok (q : List ℝ) (lam : ℝ) (selected : List Candidate)
    (hsel : ∀ s ∈ selected, s.embedding.length = q.length) :
    ∀ (rem : List Candidate), (∀ d ∈ rem, d.embedding.length = q.length) →
      mmrScores q lam selected rem = .ok (mmrScoresP q lam selected rem) := by
  intro rem
  induction rem with
  | nil => intro _; rfl
  | cons d ds ih =>
    intro hrem
    have h1 : q.length = d.embedding.length := (hrem d (by simp)).symm
    simp only [mmrScores, cosine_ok h1,
      divPenalty_ok d selected (hrem d (by simp)) hsel, exceptOk_bind,
      ih fun d' hd' => hrem d' (by simp [hd'])]
    rfl

theorem mmrSelect_ok (q : List ℝ) (lam : ℝ) :
    ∀ (n : Nat) (rem sel : List Candidate),
      (∀ d ∈ rem, d.embedding.length = q.length) →
      (∀ s ∈ sel, s.embedding.length = q.length) →
      mmrSelect q lam n rem sel = .ok (mmrSelectP q lam n rem sel) := by
  intro n
  induction n with
  | zero => intro rem sel _ _; rfl
  | succ n ih =>
    intro rem sel hrem hsel
    match rem with
    | [] => rfl
    | d :: ds =>
      obtain ⟨b, hfirst, hmax, hstep⟩ := mmrSelectP_step q lam n sel d ds
      have hb : b ∈ d :: ds := hfirst.mem
      rw [hstep]
      simp only [mmrSelect, mmrScores_ok q lam sel hsel (d :: ds) hrem, exceptOk_bind, hmax]
      exact ih ((d :: ds).erase b) (sel ++ [b])
        (fun d' hd' => hrem d' (List.erase_subset _ _ hd'))
        (by
          intro s hs
          rcases List.mem_append.mp hs with hs | hs
          · exact hsel s hs
          · rw [List.mem_singleton.mp hs]
            exact hrem b hb)

/-- On dimension-consistent input, `_mmr_rerank` succeeds and computes
the pure selection loop. -/
theorem _mmr_rerank_ok (q : List ℝ) (cands : List Candidate) (k : ℤ) (lam : ℝ)
    (hdim : ∀ c ∈ cands, c.embedding.length = q.length) :
    _mmr_rerank q cands k lam =
      .ok (mmrSelectP q lam (min k (cands.length : ℤ)).toNat cands []) := by
  unfold _mmr_rerank
  by_cases hc : cands.isEmpty
  · rw [if_pos hc, List.isEmpty_iff.mp hc, mmrSelectP_nil]
  · rw [if_neg hc]
    exact mmrSelect_ok q lam _ cands [] hdim (by simp)

/-! ### At λ = 1 the loop is the spec's stable descending sort -/

theorem insertDesc_perm (q : List ℝ) (a : Candidate) (l : List Candidate) :
    (insertDesc q a l).Perm (a :: l) := by
  induction l with
  | nil => exact List.Perm.refl _
  | cons h t ih =>
    by_cases hc : cosSimVal q h.embedding ≤ cosSimVal q a.embedding
    · rw [insertDesc, if_pos hc]
    · rw [insertDesc, if_neg hc]
      exact (ih.cons h).trans (List.Perm.swap a h t)

theorem specSortDesc_perm (q : List ℝ) (l : List Candidate) :
    (specSortDesc q l).Perm l := by
  induction l with
  | nil => exact List.Perm.refl _
  | cons a t ih =>
    exact (insertDesc_perm q a (specSortDesc q t)).trans (ih.cons a)

/-- The head of the stable descending sort is the first maximum by
relevance, and the tail sorts what remains after removing it. -/
theorem specSortDesc_firstMax (q : List ℝ) (b : Candidate) :
    ∀ (l1 l2 : List Candidate),
      (∀ x ∈ l1, cosSimVal q x.embedding < cosSimVal q b.embedding) →
      (∀ x ∈ l1 ++ b :: l2, cosSimVal q x.embedding ≤ cosSimVal q b.embedding) →
      specSortDesc q (l1 ++ b :: l2) =
        b :: specSortDesc q ((l1 ++ b :: l2).erase b) := by
  intro l1
  induction l1 with
  | nil =>
    intro l2 _ hall
    simp only [List.nil_append, List.erase_cons_head]
    simp only [specSortDesc]
    cases hs : specSortDesc q l2 with
    | nil => rfl
    | cons h t =>
      have hh : h ∈ l2 := (specSortDesc_perm q l2).mem_iff.mp (by rw [hs]; simp)
      have hcond : cosSimVal q h.embedding ≤ cosSimVal q b.embedding :=
        hall h (by simp [hh])
      rw [insertDesc, if_pos hcond]
  | cons a l1' ih =>
    intro l2 hpre hall
    have ha : cosSimVal q a.embedding < cosSimVal q b.embedding := hpre a (by simp)
    have hne : ¬(a == b) := by
      simp only [beq_iff_eq]
      rintro rfl
      exact lt_irrefl _ ha
    have hpre' : ∀ x ∈ l1', cosSimVal q x.embedding < cosSimVal q b.embedding :=
      fun x hx => hpre x (by simp [hx])
    have hall' : ∀ x ∈ l1' ++ b :: l2,
        cosSimVal q x.embedding ≤ cosSimVal q b.embedding :=
      fun x hx => hall x (by simp [hx])
    simp only [List.cons_append, specSortDesc, List.append_eq]
    rw [ih l2 hpre' hall']
    rw [insertDesc, if_neg (not_le.mpr ha)]
    rw [List.erase_cons_tail hne]
    simp only [specSortDesc]

theorem mmrScoreP_one (q : List ℝ) (sel : List Candidate) (d : Candidate) :
    mmrScoreP q 1 sel d = cosSimVal q d.embedding := by
  simp [mmrScoreP]

theorem mmrSelectP_one (q : List ℝ) :
    ∀ (n : Nat) (rem sel : List Candidate),
      mmrSelectP q 1 n rem sel = sel ++ (specSortDesc q rem).take n := by
  intro n
  induction n with
  | zero => intro rem sel; simp [mmrSelectP]
  | succ n ih =>
    intro rem sel
    match rem with
    | [] => simp [mmrSelectP, specSortDesc]
    | d :: ds =>
      obtain ⟨b, hfirst, -, hstep⟩ := mmrSelectP_step q 1 n sel d ds
      have hrel : IsFirstMax (fun x => cosSimVal q x.embedding) b (d :: ds) :=
        hfirst.congr fun x _ => mmrScoreP_one q sel x
      obtain ⟨l1, l2, hdec, hpre, hall⟩ := hrel
      have hsort : specSortDesc q (d :: ds) = b :: specSortDesc q ((d :: ds).erase b) := by
        rw [hdec]
        exact specSortDesc_firstMax q b l1 l2 hpre (hdec ▸ hall)
      rw [hstep, ih, hsort, List.take_succ_cons]
      simp

/-! ### Concrete inputs used by witnesses and counterexamples -/

/-- Concrete query embedding `[1, 0]`. -/
def qW : List ℝ := [1, 0]

/-- Concrete candidate orthogonal to `qW` (relevance 0). -/
def candA : Candidate :=
  { content := "A", metadata := [], embedding := [0, 1], similarity := 0, id := "a" }

/-- Concrete candidate aligned with `qW` (relevance 1). -/
def candB : Candidate :=
  { content := "B", metadata := [], embedding := [1, 0], similarity := 0, id := "b" }

theorem cos_qA : cosSimVal qW candA.embedding = 0 := by
  have h1 : dotL qW qW = 1 := by norm_num [qW]
  have h2 : dotL candA.embedding candA.embedding = 1 := by norm_num [candA]
  have h3 : dotL qW candA.embedding = 0 := by norm_num [qW, candA]
  simp [cosSimVal, h1, h2, h3, Real.sqrt_one]

theorem cos_qB : cosSimVal qW candB.embedding = 1 := by
  have h1 : dotL qW qW = 1 := by norm_num [qW]
  have h2 : dotL candB.embedding candB.embedding = 1 := by norm_num [candB]
  have h3 : dotL qW candB.embedding = 1 := by norm_num [qW, candB]
  simp [cosSimVal, h1, h2, h3, Real.sqrt_one]

theorem cosSimVal_bounds (v1 v2 : List ℝ) :
    -1 ≤ cosSimVal v1 v2 ∧ cosSimVal v1 v2 ≤ 1 := by
  unfold cosSimVal
  by_cases hz : Real.sqrt (dotL v1 v1) = 0 ∨ Real.sqrt (dotL v2 v2) = 0
  · simp [hz]
  · push_neg at hz
    have h1 : 0 < Real.sqrt (dotL v1 v1) :=
      lt_of_le_of_ne (Real.sqrt_nonneg _) (Ne.symm hz.1)
    have h2 : 0 < Real.sqrt (dotL v2 v2) :=
      lt_of_le_of_ne (Real.sqrt_nonneg _) (Ne.symm hz.2)
    have hp : 0 < Real.sqrt (dotL v1 v1) * Real.sqrt (dotL v2 v2) := mul_pos h1 h2
    have hsq : (dotL v1 v2) ^ 2 ≤
        (Real.sqrt (dotL v1 v1) * Real.sqrt (dotL v2 v2)) ^ 2 := by
      have e1 : Real.sqrt (dotL v1 v1) ^ 2 = dotL v1 v1 :=
        Real.sq_sqrt (dotL_self_nonneg v1)
      have e2 : Real.sqrt (dotL v2 v2) ^ 2 = dotL v2 v2 :=
        Real.sq_sqrt (dotL_self_nonneg v2)
      calc (dotL v1 v2) ^ 2 ≤ dotL v1 v1 * dotL v2 v2 := dotL_sq_le v1 v2
        _ = (Real.sqrt (dotL v1 v1) * Real.sqrt (dotL v2 v2)) ^ 2 := by
            rw [mul_pow, e1, e2]
    have habs : -(Real.sqrt (dotL v1 v1) * Real.sqrt (dotL v2 v2)) ≤ dotL v1 v2 ∧
        dotL v1 v2 ≤ Real.sqrt (dotL v1 v1) * Real.sqrt (dotL v2 v2) := by
      constructor <;> nlinarith [hsq, hp]
    rw [if_neg (by push_neg; exact hz)]
    constructor
    · rw [le_div_iff₀ hp]
      linarith [habs.1]
    · rw [div_le_one hp]
      exact habs.2

/-- CLAIM C5 (corrected): on equal-length vectors `_cosine_similarity`
returns a value in `[-1, 1]` (not `[0, 1]`: opposed vectors give a
negative value); a zero norm on either side yields exactly `0.0`; a
non-zero vector has similarity `1.0` with itself. -/
theorem cosine_similarity_props (v1 v2 : List ℝ) (h : v1.length = v2.length) :
    (∃ r, _cosine_similarity v1 v2 = .ok r ∧ -1 ≤ r ∧ r ≤ 1) ∧
    ((Real.sqrt (dotL v1 v1) = 0 ∨ Real.sqrt (dotL v2 v2) = 0) →
      _cosine_similarity v1 v2 = .ok 0) ∧
    ((∃ x ∈ v1, x ≠ 0) → _cosine_similarity v1 v1 = .ok 1) := by
  refine ⟨⟨cosSimVal v1 v2, cosine_ok h, (cosSimVal_bounds v1 v2).1,
    (cosSimVal_bounds v1 v2).2⟩, ?_, ?_⟩
  · intro hz
    rw [cosine_ok h]
    simp [cosSimVal, hz]
  · intro hx
    have hpos : 0 < dotL v1 v1 := dotL_self_pos hx
    have hs : 0 < Real.sqrt (dotL v1 v1) := Real.sqrt_pos.mpr hpos
    rw [cosine_ok rfl]
    have hcond : ¬(Real.sqrt (dotL v1 v1) = 0 ∨ Real.sqrt (dotL v1 v1) = 0) := by
      push_neg
      exact ⟨ne_of_gt hs, ne_of_gt hs⟩
    simp only [cosSimVal, if_neg hcond]
    rw [Real.mul_self_sqrt (dotL_self_nonneg v1), div_self (ne_of_gt hpos)]

/-- Witness for C5 at `v1 = [3, 4]`, `v2 = [0, 0]`. -/
theorem cosine_similarity_props_witness :
    ([(3 : ℝ), 4].length = [(0 : ℝ), 0].length) ∧
    ((∃ r, _cosine_similarity [(3 : ℝ), 4] [(0 : ℝ), 0] = .ok r ∧ -1 ≤ r ∧ r ≤ 1) ∧
      ((Real.sqrt (dotL [(3 : ℝ), 4] [(3 : ℝ), 4]) = 0 ∨
          Real.sqrt (dotL [(0 : ℝ), 0] [(0 : ℝ), 0]) = 0) →
        _cosine_similarity [(3 : ℝ), 4] [(0 : ℝ), 0] = .ok 0) ∧
      ((∃ x ∈ [(3 : ℝ), 4], x ≠ 0) →
        _cosine_similarity [(3 : ℝ), 4] [(3 : ℝ), 4] = .ok 1)) :=
  ⟨by simp, cosine_similarity_props [(3 : ℝ), 4] [(0 : ℝ), 0] (by simp)⟩

/-- Counterexample to C5 as stated: the similarity of `[1]` and `[-1]`
is `-1`, outside `[0, 1]`. -/
theorem cosine_similarity_range_cex :
    _cosine_similarity [(1 : ℝ)] [(-1 : ℝ)] = .ok (-1) ∧ ¬((0 : ℝ) ≤ -1) := by
  constructor
  · rw [cosine_ok (by simp)]
    have h1 : dotL [(1 : ℝ)] [(1 : ℝ)] = 1 := by norm_num
    have h2 : dotL [(-1 : ℝ)] [(-1 : ℝ)] = 1 := by norm_num
    have h3 : dotL [(1 : ℝ)] [(-1 : ℝ)] = -1 := by norm_num
    simp [cosSimVal, h1, h2, h3, Real.sqrt_one]
  · norm_num

/-- CLAIM C7: calling `_cosine_similarity` with mismatched lengths
fails with `InvalidInput` (numpy's `ValueError` from `np.dot`). -/
theorem cosine_similarity_dim_mismatch (v1 v2 : List ℝ)
    (h : v1.length ≠ v2.length) :
    _cosine_similarity v1 v2 = .error .invalidInput := by
  simp [_cosine_similarity, h]

/-- Witness for C7 at `v1 = [1]`, `v2 = []`. -/
theorem cosine_similarity_dim_mismatch_witness :
    ([(1 : ℝ)].length ≠ ([] : List ℝ).length) ∧
    _cosine_similarity [(1 : ℝ)] [] = .error .invalidInput :=
  ⟨by simp, cosine_similarity_dim_mismatch [(1 : ℝ)] [] (by simp)⟩

/-- CLAIM C8 (corrected): `_mmr_rerank` performs no input validation.
A negative `top_k` makes the loop run zero times and yields `ok []`,
and any `lambda` (also outside `[0, 1]`) still produces a result on
dimension-consistent input — no `InvalidInput` is ever raised. -/
theorem mmr_rerank_no_validation (q : List ℝ) (cands : List Candidate)
    (k : ℤ) (lam : ℝ)
    (hdim : ∀ c ∈ cands, c.embedding.length = q.length) :
    (k < 0 → _mmr_rerank q cands k lam = .ok []) ∧
    ∃ r, _mmr_rerank q cands k lam = .ok r := by
  constructor
  · intro hk
    rw [_mmr_rerank_ok q cands k lam hdim]
    have h0 : (min k (cands.length : ℤ)).toNat = 0 := by omega
    rw [h0]
    rfl
  · exact ⟨_, _mmr_rerank_ok q cands k lam hdim⟩

/-- Witness for C8 at `top_k = -1`, `lambda = 3/2`. -/
theorem mmr_rerank_no_validation_witness :
    (∀ c ∈ [candA], c.embedding.length = qW.length) ∧
    (((-1 : ℤ) < 0 → _mmr_rerank qW [candA] (-1) (3 / 2) = .ok []) ∧
      ∃ r, _mmr_rerank qW [candA] (-1) (3 / 2) = .ok r) :=
  ⟨by simp [candA, qW], mmr_rerank_no_validation qW [candA] (-1) (3 / 2)
    (by simp [candA, qW])⟩

/-- Counterexample to C8 as stated: with negative `top_k = -1` and
`lambda = 3/2` outside `[0, 1]`, `_mmr_rerank` returns the result
`ok []` instead of failing with `InvalidInput`. -/
theorem mmr_rerank_no_validation_cex :
    _mmr_rerank qW [candA] (-1) (3 / 2) = .ok [] := by
  rw [_mmr_rerank_ok qW [candA] (-1) (3 / 2) (by simp [candA, qW])]
  have h0 : (min (-1 : ℤ) (([candA] : List Candidate).length : ℤ)).toNat = 0 := by
    simp
  rw [h0]
  rfl

/-- CLAIM C9: when the embedding provider call fails, `semantic_search`
propagates the failure (`EmbeddingUnavailable`) and the vector-index
search is never invoked (the trace flag stays `false`). -/
theorem semantic_search_embed_failure (searchFn : List ℝ → ℤ → List Candidate)
    (top_k : Option ℤ) (use_mmr : Bool) (lam : ℝ) :
    semantic_search (.error .embeddingUnavailable) searchFn top_k use_mmr lam =
      (.error .embeddingUnavailable, false) := rfl

/-- CLAIM C2: on dimension-consistent input with non-negative `top_k`
and `lambda` in `[0, 1]`, `_mmr_rerank` returns a list of length exactly
`min(top_k, len(candidates))`. -/
theorem mmr_rerank_length (q : List ℝ) (cands : List Candidate) (k : ℤ) (lam : ℝ)
    (hdim : ∀ c ∈ cands, c.embedding.length = q.length)
    (hk : 0 ≤ k) (hlam0 : 0 ≤ lam) (hlam1 : lam ≤ 1) :
    ∃ r, _mmr_rerank q cands k lam = .ok r ∧
      r.length = min k.toNat cands.length := by
  refine ⟨_, _mmr_rerank_ok q cands k lam hdim, ?_⟩
  rw [mmrSelectP_length q lam _ cands [] (by omega)]
  simp only [List.length_nil, Nat.zero_add]
  omega

/-- Witness for C2 at `top_k = 1` over a two-candidate pool. -/
theorem mmr_rerank_length_witness :
    (∀ c ∈ [candA, candB], c.embedding.length = qW.length) ∧
    (0 : ℤ) ≤ 1 ∧ (0 : ℝ) ≤ 7 / 10 ∧ (7 / 10 : ℝ) ≤ 1 ∧
    ∃ r, _mmr_rerank qW [candA, candB] 1 (7 / 10) = .ok r ∧
      r.length = min (1 : ℤ).toNat [candA, candB].length :=
  ⟨by simp [candA, candB, qW], by norm_num, by norm_num, by norm_num,
    mmr_rerank_length qW [candA, candB] 1 (7 / 10)
      (by simp [candA, candB, qW]) (by norm_num) (by norm_num) (by norm_num)⟩

/-- CLAIM C6: the result of `_mmr_rerank` is a sub-permutation of the
candidate list — every result element corresponds to a distinct input
element, so a duplicate-free input yields a duplicate-free result. -/
theorem mmr_rerank_distinct (q : List ℝ) (cands : List Candidate) (k : ℤ) (lam : ℝ)
    (hdim : ∀ c ∈ cands, c.embedding.length = q.length) :
    ∃ r, _mmr_rerank q cands k lam = .ok r ∧ r.Subperm cands ∧
      (cands.Nodup → r.Nodup) := by
  obtain ⟨t, ht, hsub⟩ :=
    mmrSelectP_shape q lam (min k (cands.length : ℤ)).toNat cands []
  refine ⟨_, _mmr_rerank_ok q cands k lam hdim, ?_, ?_⟩
  · rw [ht]
    simpa using hsub
  · intro hnd
    rw [ht]
    obtain ⟨m, hm, hs⟩ := hsub
    simpa using hm.nodup (hs.nodup hnd)

/-- Witness for C6 over a two-candidate pool. -/
theorem mmr_rerank_distinct_witness :
    (∀ c ∈ [candA, candB], c.embedding.length = qW.length) ∧
    ∃ r, _mmr_rerank qW [candA, candB] 2 (7 / 10) = .ok r ∧
      r.Subperm [candA, candB] ∧ ([candA, candB].Nodup → r.Nodup) :=
  ⟨by simp [candA, candB, qW],
    mmr_rerank_distinct qW [candA, candB] 2 (7 / 10) (by simp [candA, candB, qW])⟩

/-- CLAIM C10: the selection loop terminates for every integer `top_k`
(negative or oversized included): each round removes exactly one element
from `remaining`, and the number of selections is exactly the fuel
`min(top_k, len(candidates))` clamped at zero, itself at most
`len(candidates)`. -/
theorem mmr_rerank_loop_bound (q : List ℝ) (cands : List Candidate) (k : ℤ) (lam : ℝ)
    (hdim : ∀ c ∈ cands, c.embedding.length = q.length) :
    (∀ (sel : List Candidate) (d : Candidate) (ds : List Candidate)
        (b : Candidate × ℝ),
        pyMax (mmrScoresP q lam sel (d :: ds)) = some b →
        ((d :: ds).erase b.1).length + 1 = (d :: ds).length) ∧
    ∃ r, _mmr_rerank q cands k lam = .ok r ∧
      r.length = (min k (cands.length : ℤ)).toNat ∧
      (min k (cands.length : ℤ)).toNat ≤ cands.length := by
  constructor
  · intro sel d ds b hb
    obtain ⟨b', hmax, hfirst⟩ := pyMax_firstMax (mmrScoreP q lam sel) d ds
    have hbb : b = (b', mmrScoreP q lam sel b') := by
      have : pyMax (mmrScoresP q lam sel (d :: ds)) =
          some (b', mmrScoreP q lam sel b') := hmax
      rw [hb] at this
      exact (Option.some_injective _ this).symm ▸ rfl
    have hmem : b.1 ∈ d :: ds := by
      rw [hbb]
      exact hfirst.mem
    rw [List.length_erase_of_mem hmem]
    simp
  · refine ⟨_, _mmr_rerank_ok q cands k lam hdim, ?_, by omega⟩
    rw [mmrSelectP_length q lam _ cands [] (by omega)]
    simp

/-- Witness for C10 with an oversized `top_k = 5` over one candidate. -/
theorem mmr_rerank_loop_bound_witness :
    (∀ c ∈ [candB], c.embedding.length = qW.length) ∧
    ((∀ (sel : List Candidate) (d : Candidate) (ds : List Candidate)
        (b : Candidate × ℝ),
        pyMax (mmrScoresP qW (7 / 10) sel (d :: ds)) = some b →
        ((d :: ds).erase b.1).length + 1 = (d :: ds).length) ∧
      ∃ r, _mmr_rerank qW [candB] 5 (7 / 10) = .ok r ∧
        r.length = (min (5 : ℤ) (([candB] : List Candidate).length : ℤ)).toNat ∧
        (min (5 : ℤ) (([candB] : List Candidate).length : ℤ)).toNat ≤
          [candB].length) :=
  ⟨by simp [candB, qW],
    mmr_rerank_loop_bound qW [candB] 5 (7 / 10) (by simp [candB, qW])⟩

/-- CLAIM C3: at `λ = 1` the re-ranking loop returns exactly the first
`min(top_k, len(candidates))` candidates of the spec's stable descending
sort by similarity-to-query (ties broken by original order). -/
theorem mmr_rerank_lambda_one (q : List ℝ) (cands : List Candidate) (k : ℤ)
    (hdim : ∀ c ∈ cands, c.embedding.length = q.length) :
    _mmr_rerank q cands k 1 =
      .ok ((specSortDesc q cands).take (min k (cands.length : ℤ)).toNat) := by
  rw [_mmr_rerank_ok q cands k 1 hdim, mmrSelectP_one]
  simp

/-- Witness for C3 over a two-candidate pool. -/
theorem mmr_rerank_lambda_one_witness :
    (∀ c ∈ [candA, candB], c.embedding.length = qW.length) ∧
    _mmr_rerank qW [candA, candB] 2 1 =
      .ok ((specSortDesc qW [candA, candB]).take
        (min (2 : ℤ) (([candA, candB] : List Candidate).length : ℤ)).toNat) :=
  ⟨by simp [candA, candB, qW],
    mmr_rerank_lambda_one qW [candA, candB] 2 (by simp [candA, candB, qW])⟩

/-- CLAIM C4: in each selection round, the chosen candidate is a first
maximum of the MMR scores over the current `remaining` — every earlier
candidate scores strictly less (so exact ties are broken in favor of the
earlier one) and no candidate scores more. -/
theorem mmr_round_tie_break (q : List ℝ) (lam : ℝ) (n : Nat)
    (sel : List Candidate) (d : Candidate) (ds : List Candidate)
    (hrem : ∀ c ∈ d :: ds, c.embedding.length = q.length)
    (hsel : ∀ s ∈ sel, s.embedding.length = q.length) :
    ∃ b, IsFirstMax (mmrScoreP q lam sel) b (d :: ds) ∧
      mmrSelect q lam (n + 1) (d :: ds) sel =
        mmrSelect q lam n ((d :: ds).erase b) (sel ++ [b]) := by
  obtain ⟨b, hfirst, hmax, -⟩ := mmrSelectP_step q lam n sel d ds
  refine ⟨b, hfirst, ?_⟩
  simp only [mmrSelect, mmrScores_ok q lam sel hsel _ hrem, exceptOk_bind, hmax]

/-- Witness for C4: a round over two tied candidates. -/
theorem mmr_round_tie_break_witness :
    (∀ c ∈ [candA, candB], c.embedding.length = qW.length) ∧
    (∀ s ∈ ([] : List Candidate), s.embedding.length = qW.length) ∧
    ∃ b, IsFirstMax (mmrScoreP qW 0 []) b [candA, candB] ∧
      mmrSelect qW 0 (1 + 1) [candA, candB] [] =
        mmrSelect qW 0 1 ([candA, candB].erase b) ([] ++ [b]) :=
  ⟨by simp [candA, candB, qW], by simp,
    mmr_round_tie_break qW 0 1 [] candA [candB]
      (by simp [candA, candB, qW]) (by simp)⟩

theorem mmrScoreP_nil_sel (q : List ℝ) (lam : ℝ) (d : Candidate) :
    mmrScoreP q lam [] d = lam * cosSimVal q d.embedding := by
  simp [mmrScoreP, divPenaltyP]

/-- CLAIM C1 (corrected): for `lambda` in `(0, 1]` (not `[0, 1]`: at
`lambda = 0` every first-round score is `0`, so the tie-break picks the
first candidate in input order regardless of relevance), the first
candidate selected by `_mmr_rerank` on a non-empty pool with
`top_k ≥ 1` is a first maximum of similarity-to-query: earlier
candidates are strictly less similar, no candidate is more similar. -/
theorem mmr_first_pick_max_relevance (q : List ℝ) (cands : List Candidate)
    (k : ℤ) (lam : ℝ)
    (hdim : ∀ c ∈ cands, c.embedding.length = q.length)
    (hne : cands ≠ []) (hk : 1 ≤ k) (hlam0 : 0 < lam) (hlam1 : lam ≤ 1) :
    ∃ r b, _mmr_rerank q cands k lam = .ok r ∧ r.head? = some b ∧
      IsFirstMax (fun x => cosSimVal q x.embedding) b cands := by
  match cands, hne with
  | d :: ds, _ =>
    have hfuel : ∃ m, (min k ((d :: ds).length : ℤ)).toNat = m + 1 := by
      refine ⟨(min k ((d :: ds).length : ℤ)).toNat - 1, ?_⟩
      simp only [List.length_cons]
      omega
    obtain ⟨m, hm⟩ := hfuel
    obtain ⟨b, hfirst, -, hstep⟩ := mmrSelectP_step q lam m [] d ds
    have hsm : IsFirstMax (fun x => lam * cosSimVal q x.embedding) b (d :: ds) :=
      hfirst.congr fun x _ => mmrScoreP_nil_sel q lam x
    obtain ⟨t, ht, -⟩ := mmrSelectP_shape q lam m ((d :: ds).erase b) ([] ++ [b])
    refine ⟨_, b, _mmr_rerank_ok q (d :: ds) k lam hdim, ?_, hsm.of_smul hlam0⟩
    rw [hm, hstep, ht]
    simp

/-- Witness for C1 at `lambda = 1` over a two-candidate pool. -/
theorem mmr_first_pick_max_relevance_witness :
    (∀ c ∈ [candA, candB], c.embedding.length = qW.length) ∧
    ([candA, candB] ≠ ([] : List Candidate)) ∧ (1 : ℤ) ≤ 1 ∧
    (0 : ℝ) < 1 ∧ (1 : ℝ) ≤ 1 ∧
    ∃ r b, _mmr_rerank qW [candA, candB] 1 1 = .ok r ∧ r.head? = some b ∧
      IsFirstMax (fun x => cosSimVal qW x.embedding) b [candA, candB] :=
  ⟨by simp [candA, candB, qW], by simp, by norm_num, by norm_num, by norm_num,
    mmr_first_pick_max_relevance qW [candA, candB] 1 1
      (by simp [candA, candB, qW]) (by simp) (by norm_num) (by norm_num)
      (by norm_num)⟩

/-- Counterexample to C1 as stated: at `lambda = 0` the first selected
candidate is `candA` (first in input order) although `candB` is strictly
more similar to the query — every first-round score is
`0 * relevance - 1 * 0 = 0`, so relevance is ignored. -/
theorem mmr_first_pick_lambda_zero_cex :
    _mmr_rerank qW [candA, candB] 1 0 = .ok [candA] ∧
    cosSimVal qW candA.embedding < cosSimVal qW candB.embedding := by
  constructor
  · rw [_mmr_rerank_ok qW [candA, candB] 1 0 (by simp [candA, candB, qW])]
    have hfuel : (min (1 : ℤ) ((List.length [candA, candB] : Nat) : ℤ)).toNat = 0 + 1 := by
      norm_num
    rw [hfuel]
    obtain ⟨b, -, hmax, hstep⟩ := mmrSelectP_step qW 0 0 [] candA [candB]
    have hs : mmrScoresP qW 0 [] [candA, candB] = [(candA, 0), (candB, 0)] := by
      simp [mmrScoresP, mmrScoreP, divPenaltyP]
    have hp : pyMax (mmrScoresP qW 0 [] [candA, candB]) = some (candA, 0) := by
      rw [hs]
      simp [pyMax]
    have hb : b = candA := by
      have h2 := hmax.symm.trans hp
      exact congrArg Prod.fst (Option.some.inj h2)
    subst hb
    rw [hstep]
    simp [mmrSelectP]
  · rw [cos_qA, cos_qB]
    norm_num

end

end YunoRag
